import Mathlib

/-!
Verification of the PINT vertex-relocation core
(src/ciftify/bin/ciftify_PINT_vertices.py) against its specification.

The embedding translates the source functions into Lean:
* seed registry rows become `SeedRow` records (one row of the pandas frame,
  with `pos` holding the value of the current vertex-input column),
* numpy arrays over vertices become functions `Nat → _` together with an
  explicit vertex count `m`,
* time series become functions `Fin T → ℝ` (the float arithmetic of the
  source is idealised as real arithmetic),
* external collaborators (wb_command geodesic ROIs and distances, and
  scipy.linalg.lstsq) are parameters of the embedded functions.
-/

/-- Hemisphere tag of a seed row (column `hemi` of the input table). -/
inductive Hemi where
  | L : Hemi
  | R : Hemi
deriving DecidableEq, Repr

/-- One row of the seed table: `roiidx`, `NETWORK`, `hemi` and the value of
the current vertex-input column (`tvertex` / `vertex_k` / `avertex`).
Network labels are coded as naturals; positions are hemisphere-local and can
be negative after the `peakvert - num_Lverts` adjustment, hence `Int`. -/
structure SeedRow where
  hemi : Hemi
  network : Nat
  roiidx : Nat
  pos : Int
deriving DecidableEq, Repr

/-- Row access `df.loc[idx]` (out-of-range access never happens in the
source; the default row is irrelevant). -/
def dfRow (df : List SeedRow) (idx : Nat) : SeedRow :=
  df.getD idx ⟨Hemi.L, 0, 0, 0⟩

/-- Source `iterate_pint`, lines 414-423: a sweep's three region masks.
`sampling`/`search`/`padding` map every stacked vertex index to the owning
seed's `roiidx` (0 = unassigned), as returned by `rois_bilateral`. -/
structure SweepMasks where
  sampling : Nat → Nat
  search : Nat → Nat
  padding : Nat → Nat

/-- Source `sampling_rois[func_zeros] = 0`: zero a mask at every invalid
(low-quality) vertex listed in `func_zeros`. -/
def applyFuncZeros (mask : Nat → Nat) (func_zeros : List Nat) : Nat → Nat :=
  fun v => if func_zeros.contains v then 0 else mask v

/-- Source `iterate_pint`, lines 414-423, one sweep's mask construction:
the geometry provider's outputs `roisS` (sampling radius), `roisE` (search
radius) and `roisP` (padding radius) are post-processed exactly as in the
source: the sampling mask and the search mask are zeroed at `func_zeros`;
the padding mask is used as returned (line 423 has no `[func_zeros] = 0`). -/
def buildSweepMasks (roisS roisE roisP : Nat → Nat) (func_zeros : List Nat) :
    SweepMasks :=
  ⟨applyFuncZeros roisS func_zeros, applyFuncZeros roisE func_zeros, roisP⟩

/-- Source `np.where(mask == lbl)[0]` over a vertex array of length `m`:
the ascending list of vertex indices carrying label `lbl`. -/
def whereEq (mask : Nat → Nat) (m lbl : Nat) : List Nat :=
  (List.range m).filter (fun v => mask v == lbl)

/-- Source `np.intersect1d(a, b, assume_unique=True)` for sorted unique
inputs: the elements of `a` that also occur in `b`, in order. -/
def np_intersect1d (a b : List Nat) : List Nat :=
  a.filter (fun x => b.contains x)

/-- Source `pint_move_vertex`, lines 362-364: the admissible candidate set
of a seed with label `vlabel` - the intersection of its search-mask vertices
and its padding-mask vertices. -/
def pmvMask (search_rois padding_rois : Nat → Nat) (m vlabel : Nat) : List Nat :=
  np_intersect1d (whereEq search_rois m vlabel) (whereEq padding_rois m vlabel)

/-- Source `pint_move_vertex`, line 357: the seed's network co-members,
`list(set(df[df.NETWORK == network].roiidx) - set([vlabel]))` (roiidx values
are unique, so filtering the member list is the same set). -/
def networkMembers (df : List SeedRow) (network : Nat) : List Nat :=
  (df.filter (fun s => s.network == network)).map (fun s => s.roiidx)

/-- Source `pint_move_vertex`, line 357: co-member labels with the seed's
own label removed. -/
def netlabelsOf (df : List SeedRow) (network vlabel : Nat) : List Nat :=
  (networkMembers df network).filter (fun l => l != vlabel)

/-- Source `np.mean(sampling_meants[(np.array(netlabels) - 1), :], axis=0)`
(line 358): the mean over the selected rows of the sampling-means matrix
(row `l - 1` for label `l`).  An empty selection yields the division-by-zero
convention of Lean (`0`); numpy's `np.mean` on an empty axis yields NaN -
either way no error is reported. -/
noncomputable def meantsOf {T : Nat} (sampling_meants : Nat → Fin T → ℝ)
    (netlabels : List Nat) : Fin T → ℝ :=
  fun t => ((netlabels.map (fun l => sampling_meants (l - 1) t)).sum) /
    (netlabels.length : ℝ)

/-- Mean of a time series (a row's average over timepoints). -/
noncomputable def vmean {T : Nat} (x : Fin T → ℝ) : ℝ := (∑ t, x t) / (T : ℝ)

/-- A series recentred around its mean. -/
noncomputable def centered {T : Nat} (x : Fin T → ℝ) : Fin T → ℝ :=
  fun t => x t - vmean x

/-- Pearson correlation coefficient, as computed by `np.corrcoef(x, y)[0][1]`
and by `scipy.stats.pearsonr(x, y)[0]`. -/
noncomputable def pearson {T : Nat} (x y : Fin T → ℝ) : ℝ :=
  (∑ t, centered x t * centered y t) /
    Real.sqrt ((∑ t, centered x t * centered x t) *
      (∑ t, centered y t * centered y t))

/-- Matrix-vector product `Z.dot(beta)` written as explicit sums. -/
def matVec {n p : Nat} (Z : Matrix (Fin n) (Fin p) ℝ) (beta : Fin p → ℝ) :
    Fin n → ℝ :=
  fun i => ∑ j, Z i j * beta j

/-- The normal-equations characterisation of a linear least-squares solution
`beta` of `Z beta ≈ x`: the residual is orthogonal to every column of `Z`.
This is the contract of the external `scipy.linalg.lstsq` and the reference
definition of a least-squares regression used by the specification. -/
def isLstsqSol {n p : Nat} (Z : Matrix (Fin n) (Fin p) ℝ) (x : Fin n → ℝ)
    (beta : Fin p → ℝ) : Prop :=
  ∀ j, (∑ i, Z i j * (x i - matVec Z beta i)) = 0

/-- Source `partial_corr(X, Y, Z)` (lines 281-334): regress `X` on `Z` and
`Y` on `Z` with the external least-squares routine `lstsq`
(`scipy.linalg.lstsq`), take residuals, and return the Pearson correlation
of the residuals. -/
noncomputable def partial_corr {n p : Nat}
    (lstsq : Matrix (Fin n) (Fin p) ℝ → (Fin n → ℝ) → Fin p → ℝ)
    (X Y : Fin n → ℝ) (Z : Matrix (Fin n) (Fin p) ℝ) : ℝ :=
  pearson (fun i => X i - matVec Z (lstsq Z X) i)
    (fun i => Y i - matVec Z (lstsq Z Y) i)

/-- Source `netmeants.loc[:, o_networks]` (lines 378-381): the columns of
the network-means table whose network label differs from the seed's own
network. -/
def othersCols {T : Nat} (netmeants : List (Nat × (Fin T → ℝ)))
    (network : Nat) : List (Fin T → ℝ) :=
  (netmeants.filter (fun q => q.1 != network)).map Prod.snd

/-- A list of column series as a matrix (`.as_matrix()` of the selected
columns). -/
def matrixOfCols {T : Nat} (cols : List (Fin T → ℝ)) :
    Matrix (Fin T) (Fin cols.length) ℝ :=
  Matrix.of (fun t j => (cols.get j) t)

/-- Source `pint_move_vertex`, lines 377-384: the correlation score of one
candidate vertex `v` against the target series `meants` - the partial
correlation controlling for all other networks' mean series when `pcorr`,
plain Pearson correlation otherwise. -/
noncomputable def pmvScore {T : Nat} (pcorr : Bool)
    (lstsq : (q : Nat) → Matrix (Fin T) (Fin q) ℝ → (Fin T → ℝ) → Fin q → ℝ)
    (netmeants : List (Nat × (Fin T → ℝ))) (network : Nat)
    (meants : Fin T → ℝ) (func_data : Nat → Fin T → ℝ) : Nat → ℝ :=
  fun v =>
    if pcorr then
      partial_corr (lstsq (othersCols netmeants network).length) meants
        (func_data v) (matrixOfCols (othersCols netmeants network))
    else pearson meants (func_data v)

/-- The score function of the seed at row `idx`: target series = mean of the
seed's network co-members' sampling rows (self excluded), scored per
candidate by `pmvScore`. -/
noncomputable def pmvScoreOf {T : Nat}
    (lstsq : (q : Nat) → Matrix (Fin T) (Fin q) ℝ → (Fin T → ℝ) → Fin q → ℝ)
    (df : List SeedRow) (idx : Nat) (func_data : Nat → Fin T → ℝ)
    (sampling_meants : Nat → Fin T → ℝ) (pcorr : Bool)
    (netmeants : List (Nat × (Fin T → ℝ))) : Nat → ℝ :=
  pmvScore pcorr lstsq netmeants (dfRow df idx).network
    (meantsOf sampling_meants
      (netlabelsOf df (dfRow df idx).network (dfRow df idx).roiidx))
    func_data

/-- Source lines 373-384: the per-vertex correlation array, initialised to
`np.zeros(m) - 1` and overwritten at each candidate index with its score. -/
noncomputable def seedCorrsOf (sc : Nat → ℝ) (idx_mask : List Nat) :
    Nat → ℝ :=
  idx_mask.foldl (fun arr v => Function.update arr v (sc v)) (fun _ => -1)

/-- Source `np.argmax` over the first `m` entries of `f`: the first index
attaining the maximum (numpy ties resolve to the lowest index). -/
noncomputable def np_argmax (f : Nat → ℝ) (m : Nat) : Nat :=
  (List.range m).foldl (fun best v => if f best < f v then v else best) 0

/-- Source line 387: `if hemi == 'R': peakvert = peakvert - num_Lverts`. -/
def hemiAdjust (h : Hemi) (peakvert : Nat) (num_Lverts : Nat) : Int :=
  if h = Hemi.R then (peakvert : Int) - (num_Lverts : Int) else (peakvert : Int)

/-- Source `pint_move_vertex` (lines 336-391): the new value written to the
seed's vertex-output column.  The source mutates `df.loc[idx, vertex_outcol]`;
every value it reads (`roiidx`, `NETWORK`, `hemi`, `vertex_incol`, the masks,
`sampling_meants`, `netmeants`, `func_data`) is frozen before the per-seed
loop of a sweep, so the result is a pure function of those inputs. -/
noncomputable def pint_move_vertex {T : Nat}
    (lstsq : (q : Nat) → Matrix (Fin T) (Fin q) ℝ → (Fin T → ℝ) → Fin q → ℝ)
    (df : List SeedRow) (idx : Nat) (func_data : Nat → Fin T → ℝ)
    (sampling_meants : Nat → Fin T → ℝ)
    (search_rois padding_rois : Nat → Nat) (pcorr : Bool)
    (num_Lverts m : Nat) (netmeants : List (Nat × (Fin T → ℝ))) : Int :=
  if (pmvMask search_rois padding_rois m (dfRow df idx).roiidx).isEmpty then
    (dfRow df idx).pos
  else
    hemiAdjust (dfRow df idx).hemi
      (np_argmax
        (seedCorrsOf (pmvScoreOf lstsq df idx func_data sampling_meants pcorr netmeants)
          (pmvMask search_rois padding_rois m (dfRow df idx).roiidx))
        m)
      num_Lverts

/-- Source `iterate_pint`, lines 434-441: one sweep's per-seed loop.  The
seeds are visited in the order `order` (a shuffle of `df.index`); each visit
writes the seed's own output-column cell with its `pint_move_vertex` result.
The accumulator records the output column (`none` = not yet written). -/
noncomputable def runSweep {T : Nat}
    (lstsq : (q : Nat) → Matrix (Fin T) (Fin q) ℝ → (Fin T → ℝ) → Fin q → ℝ)
    (df : List SeedRow) (func_data : Nat → Fin T → ℝ)
    (sampling_meants : Nat → Fin T → ℝ)
    (search_rois padding_rois : Nat → Nat) (pcorr : Bool)
    (num_Lverts m : Nat) (netmeants : List (Nat × (Fin T → ℝ)))
    (order : List Nat) : Nat → Option Int :=
  order.foldl
    (fun out idx =>
      Function.update out idx
        (some (pint_move_vertex lstsq df idx func_data sampling_meants
          search_rois padding_rois pcorr num_Lverts m netmeants)))
    (fun _ => none)

/-- Source `calc_surf_distance` (lines 186-198).  The external
`ciftify.io.get_surf_distances` call is the parameter `get_surf_distances`;
the boolean records whether that geometry provider was invoked. -/
def calc_surf_distance (get_surf_distances : Int → Int → ℝ)
    (orig_vertex target_vertex : Int) : ℝ × Bool :=
  if orig_vertex = target_vertex then ((0 : ℝ), false)
  else (get_surf_distances orig_vertex target_vertex, true)

/-- Source `iterate_pint` while loop (lines 405-451), fuel form.  The source
condition is `iter_num < start_iter + 50 and max_distance > 1` and `iter_num`
increases by one every pass, so the remaining-iteration count
`start_iter + 50 - iter_num` is the fuel; the loop body (mask building,
means, the per-seed loop, the distance column) is abstracted as `sweep`,
mapping the current `iter_num` and state to the new state and the sweep's
`max_distance`. -/
noncomputable def iterate_loop {St : Type} (sweep : Nat → St → St × ℝ) :
    Nat → Nat → St → ℝ → St × ℝ × Nat
  | 0, iter_num, st, maxd => (st, maxd, iter_num)
  | fuel + 1, iter_num, st, maxd =>
      if 1 < maxd then
        iterate_loop sweep fuel (iter_num + 1) (sweep iter_num st).1
          (sweep iter_num st).2
      else (st, maxd, iter_num)

/-- Source `iterate_pint` (lines 393-458): `iter_num` starts at
`start_iter`, `max_distance` starts at 10, and the loop runs while
`iter_num < start_iter + 50 and max_distance > 1`.  Returns the final state,
the last computed `max_distance` and the final `iter_num`. -/
noncomputable def iterate_pint {St : Type} (sweep : Nat → St → St × ℝ)
    (start_iter : Nat) (st : St) : St × ℝ × Nat :=
  iterate_loop sweep 50 start_iter st 10

/-- State after `k` executed sweeps of `iterate_pint` (sweep `j` runs at
`iter_num = base + j`). -/
def sweepState {St : Type} (sweep : Nat → St → St × ℝ) (base : Nat)
    (st0 : St) : Nat → St
  | 0 => st0
  | k + 1 => (sweep (base + k) (sweepState sweep base st0 k)).1

/-- The `max_distance` reported by sweep `j` of `iterate_pint`. -/
def sweepDist {St : Type} (sweep : Nat → St → St × ℝ) (base : Nat)
    (st0 : St) (j : Nat) : ℝ :=
  (sweep (base + j) (sweepState sweep base st0 j)).2

/-- Python call binding for a `def` whose parameters are `params`, of which
the last `numDefaults` have default values: a call with `nPos` positional
arguments and keyword arguments `kw` binds (does not raise `TypeError`) iff
there are not more positional arguments than parameters, every keyword names
a parameter that is not already bound positionally, and every parameter
without a default is bound positionally or by keyword. -/
def pythonCallBinds (params : List String) (numDefaults nPos : Nat)
    (kw : List String) : Bool :=
  nPos ≤ params.length &&
  kw.all (fun k => params.contains k && !((params.take nPos).contains k)) &&
  ((params.take (params.length - numDefaults)).enum.all
    (fun q => q.1 < nPos || kw.contains q.2))

/-- The parameter list of source `iterate_pint` (line 393-394); only
`start_iter` has a default. -/
def iterate_pint_params : List String :=
  ["df", "vertex_incol", "func_data", "func_zeros", "pcorr",
   "surfL", "surfR", "num_Lverts", "start_iter"]

/-- Source `run_PINT`, line 96: `func_zeros = np.where(func_data[:,5]<5)[0]`.
Per vertex row, the validity test reads the time-series value at timepoint
index 5 and flags the vertex invalid when that value is below 5; a row with
fewer than 6 timepoints has no such value (`none` - numpy raises an
`IndexError` there). -/
def func_zeros_flag (row : List ℝ) : Option Prop :=
  (row.get? 5).map (fun x => x < 5)

/-- Source `run_PINT`, line 95: `func_data = np.vstack((func_dataL,
func_dataR))` - the hemisphere-stacked matrix, left block first. -/
def vstack (dataL dataR : Nat → List ℝ) (num_Lverts : Nat) : Nat → List ℝ :=
  fun v => if v < num_Lverts then dataL v else dataR (v - num_Lverts)

/- ------------------------------------------------------------------ -/
/- Concrete instances used by witnesses and counterexamples.          -/
/- ------------------------------------------------------------------ -/

/-- Two seeds of one network, hemisphere L; seed 0 starts at vertex 1. -/
def cDf6 : List SeedRow := [⟨Hemi.L, 1, 1, 1⟩, ⟨Hemi.L, 1, 2, 0⟩]

/-- Search mask labelling only vertex 1 with label 1. -/
def cSearch6 : Nat → Nat := fun v => if v = 1 then 1 else 0

/-- Padding mask labelling every vertex with label 1. -/
def cPad6 : Nat → Nat := fun _ => 1

/-- Sampling-means matrix whose row 1 (label 2) is the series (2, -2). -/
noncomputable def cSamp6 : Nat → Fin 2 → ℝ :=
  fun r => if r = 1 then ![2, -2] else ![0, 0]

/-- Functional data where vertex 1 carries the series (-1, 1), perfectly
anticorrelated with the target (2, -2). -/
noncomputable def cFunc6 : Nat → Fin 2 → ℝ :=
  fun v => if v = 1 then ![-1, 1] else ![0, 0]

/-- Functional data where every vertex carries the constant-zero series. -/
noncomputable def cFuncZeroSeries : Nat → Fin 2 → ℝ := fun _ _ => 0

/-- A trivial stand-in for the external least-squares routine (its value is
irrelevant in full-correlation mode). -/
noncomputable def cLstsq2 :
    (q : Nat) → Matrix (Fin 2) (Fin q) ℝ → (Fin 2 → ℝ) → Fin q → ℝ :=
  fun _ _ _ => fun _ => 0

/-- A single seed whose network (label 1) has no other member. -/
def cDf5 : List SeedRow := [⟨Hemi.L, 1, 1, 0⟩]

/-- Source `np.unique` on a vertex-label array: the sorted list of distinct
values, here computed as the ascending naturals up to the maximum value that
occur in the list. -/
def np_unique (l : List Nat) : List Nat :=
  (List.range (l.foldr max 0 + 1)).filter (fun x => l.contains x)

/-- The vertex-label array of a mask over `m` vertices, as a list. -/
def maskValues (mask : Nat → Nat) (m : Nat) : List Nat :=
  (List.range m).map mask

/-- Source `calc_sampling_meants` inner loop (lines 270-272): the mean time
series over the vertices of one label of the sampling mask. -/
noncomputable def sampleRow {T : Nat} (func_data : Nat → Fin T → ℝ)
    (mask : Nat → Nat) (m roi : Nat) : Fin T → ℝ :=
  fun t => ((whereEq mask m roi).map (fun v => func_data v t)).sum /
    ((whereEq mask m roi).length : ℝ)

/-- Source `calc_sampling_meants` (lines 261-278): one output row per entry
of `np.unique(sampling_roi_mask)[1:]` - the distinct mask values with the
smallest one dropped - each row the mean series over that label's
vertices. -/
noncomputable def calc_sampling_meants {T : Nat} (func_data : Nat → Fin T → ℝ)
    (mask : Nat → Nat) (m : Nat) : List (Fin T → ℝ) :=
  ((np_unique (maskValues mask m)).tail).map (sampleRow func_data mask m)

/-- Row lookup into the sampling-means matrix (numpy row indexing); rows are
addressed by position, as in `sampling_meants[(l - 1), :]`. -/
noncomputable def rowOf {T : Nat} (rows : List (Fin T → ℝ)) : Nat → Fin T → ℝ :=
  fun i => rows.getD i (fun _ => 0)

/-- The distinct nonzero labels present in a mask, ascending. -/
def nonzeroLabels (mask : Nat → Nat) (m : Nat) : List Nat :=
  (np_unique (maskValues mask m)).filter (fun x => x != 0)

/- ------------------------------------------------------------------ -/
/- Helper lemmas.                                                     -/
/- ------------------------------------------------------------------ -/

/-- Membership in a numpy where-list. -/
theorem mem_whereEq {mask : Nat → Nat} {m lbl v : Nat} :
    v ∈ whereEq mask m lbl ↔ v < m ∧ mask v = lbl := by
  simp [whereEq, List.mem_filter, List.mem_range]

/-- Membership in the candidate mask forces membership in both the search
and padding where-lists. -/
theorem mem_pmvMask {search padding : Nat → Nat} {m vlabel v : Nat}
    (h : v ∈ pmvMask search padding m vlabel) :
    v < m ∧ search v = vlabel ∧ padding v = vlabel := by
  have h1 : v ∈ whereEq search m vlabel ∧ v ∈ whereEq padding m vlabel := by
    have := List.of_mem_filter h
    refine ⟨List.mem_of_mem_filter h, ?_⟩
    simpa [List.contains, List.elem_eq_mem] using this
  obtain ⟨hs, hp⟩ := h1
  exact ⟨(mem_whereEq.mp hs).1, (mem_whereEq.mp hs).2, (mem_whereEq.mp hp).2⟩

/-- Zeroing a mask at the invalid-vertex list really zeroes it there. -/
theorem applyFuncZeros_mem {mask : Nat → Nat} {fz : List Nat} {v : Nat}
    (h : v ∈ fz) : applyFuncZeros mask fz v = 0 := by
  simp [applyFuncZeros, List.contains, List.elem_eq_mem, h]

/- ------------------------------------------------------------------ -/
/- Claim C1.                                                          -/
/- ------------------------------------------------------------------ -/

/-- C1, counterexample: the claim says invalid vertices are removed from
every mask built for a sweep, including the padding mask.  With the geometry
provider labelling every vertex 1 and vertex 0 flagged invalid
(func_zeros = [0]), the sweep's padding mask still labels vertex 0 with 1:
line 423 of the source applies no func_zeros zeroing to the padding mask. -/
theorem c1_padding_not_filtered :
    0 ∈ ([0] : List Nat) ∧
      (buildSweepMasks (fun _ => 1) (fun _ => 1) (fun _ => 1) [0]).padding 0 = 1 :=
  ⟨by decide, rfl⟩

/-- C1, amended: on every sweep, invalid vertices are removed from the
sampling mask and the search mask before use; the padding mask is not
filtered, but since a seed's candidate set is the intersection of its search
and padding where-lists, an invalid vertex still never becomes a candidate
for any seed with a nonzero label. -/
theorem c1_invalid_vertices_excluded (roisS roisE roisP : Nat → Nat)
    (fz : List Nat) (v m vlabel : Nat) (hv : v ∈ fz) (hl : vlabel ≠ 0) :
    (buildSweepMasks roisS roisE roisP fz).sampling v = 0 ∧
    (buildSweepMasks roisS roisE roisP fz).search v = 0 ∧
    v ∉ pmvMask (buildSweepMasks roisS roisE roisP fz).search
        (buildSweepMasks roisS roisE roisP fz).padding m vlabel := by
  refine ⟨applyFuncZeros_mem hv, applyFuncZeros_mem hv, ?_⟩
  intro hmem
  have h2 := (mem_pmvMask hmem).2.1
  rw [show (buildSweepMasks roisS roisE roisP fz).search v = 0 from
    applyFuncZeros_mem hv] at h2
  exact hl h2.symm

/-- C1, witness for the amended theorem at a concrete sweep. -/
theorem c1_invalid_vertices_excluded_witness :
    0 ∈ ([0] : List Nat) ∧ (1 : Nat) ≠ 0 ∧
      (buildSweepMasks (fun _ => 1) (fun _ => 2) (fun _ => 3) [0]).sampling 0 = 0 ∧
      (buildSweepMasks (fun _ => 1) (fun _ => 2) (fun _ => 3) [0]).search 0 = 0 ∧
      0 ∉ pmvMask (buildSweepMasks (fun _ => 1) (fun _ => 2) (fun _ => 3) [0]).search
          (buildSweepMasks (fun _ => 1) (fun _ => 2) (fun _ => 3) [0]).padding 4 1 := by
  refine ⟨by decide, by decide, ?_⟩
  exact c1_invalid_vertices_excluded (fun _ => 1) (fun _ => 2) (fun _ => 3) [0] 0 4 1
    (by decide) (by decide)

/- ------------------------------------------------------------------ -/
/- Claim C2.                                                          -/
/- ------------------------------------------------------------------ -/

/-- C2: the claim says the reconciliation pass re-runs all seeds through
iterate_pint starting the sweep counter at 50 without raising any error.
The first iterate_pint call (lines 107-109) passes all 8 required parameters
positionally and binds; the reconciliation call (lines 132-135) passes only
6 positional arguments (df, 'avertex', func_data, func_zeros, pcorr,
num_Lverts) plus the keyword start_iter, leaving the required parameters
surfR and num_Lverts unbound, so Python raises TypeError before any second
pass runs. -/
theorem c2_reconciliation_call_raises :
    pythonCallBinds iterate_pint_params 1 8 [] = true ∧
    pythonCallBinds iterate_pint_params 1 6 ["start_iter"] = false := by
  constructor <;> rfl

/- ------------------------------------------------------------------ -/
/- Claim C7.                                                          -/
/- ------------------------------------------------------------------ -/

/-- C7: when a seed's admissible candidate set (search-mask vertices
intersected with padding-mask vertices) is empty in a sweep, the seed's
outgoing position equals its incoming position, and the sweep's recorded
displacement for that seed is 0, computed without invoking the geometry
provider (`calc_surf_distance` short-circuits on equal vertices). -/
theorem c7_empty_candidate_window {T : Nat}
    (lstsq : (q : Nat) → Matrix (Fin T) (Fin q) ℝ → (Fin T → ℝ) → Fin q → ℝ)
    (df : List SeedRow) (idx : Nat) (func_data : Nat → Fin T → ℝ)
    (sampling_meants : Nat → Fin T → ℝ)
    (search_rois padding_rois : Nat → Nat) (pcorr : Bool)
    (num_Lverts m : Nat) (netmeants : List (Nat × (Fin T → ℝ)))
    (get_surf_distances : Int → Int → ℝ)
    (hempty : pmvMask search_rois padding_rois m (dfRow df idx).roiidx = []) :
    pint_move_vertex lstsq df idx func_data sampling_meants search_rois
        padding_rois pcorr num_Lverts m netmeants = (dfRow df idx).pos ∧
    calc_surf_distance get_surf_distances (dfRow df idx).pos
        (pint_move_vertex lstsq df idx func_data sampling_meants search_rois
          padding_rois pcorr num_Lverts m netmeants) = ((0 : ℝ), false) := by
  have hmv : pint_move_vertex lstsq df idx func_data sampling_meants
      search_rois padding_rois pcorr num_Lverts m netmeants = (dfRow df idx).pos := by
    rw [pint_move_vertex, hempty]
    rfl
  refine ⟨hmv, ?_⟩
  rw [hmv, calc_surf_distance, if_pos rfl]

/-- C7, witness: a concrete seed whose label (1) appears nowhere in the
search mask, so its candidate set is empty, it stays at vertex 7, and the
distance is 0 with the provider not invoked. -/
theorem c7_empty_candidate_window_witness :
    pmvMask (fun _ => 0) (fun _ => 1) 3 (dfRow [⟨Hemi.L, 1, 1, 7⟩] 0).roiidx = [] ∧
    pint_move_vertex cLstsq2 [⟨Hemi.L, 1, 1, 7⟩] 0 cFuncZeroSeries cSamp6
        (fun _ => 0) (fun _ => 1) false 0 3 [] = (dfRow [⟨Hemi.L, 1, 1, 7⟩] 0).pos ∧
    calc_surf_distance (fun _ _ => 99) (dfRow [⟨Hemi.L, 1, 1, 7⟩] 0).pos
        (pint_move_vertex cLstsq2 [⟨Hemi.L, 1, 1, 7⟩] 0 cFuncZeroSeries cSamp6
          (fun _ => 0) (fun _ => 1) false 0 3 []) = ((0 : ℝ), false) := by
  have hempty : pmvMask (fun _ => 0) (fun _ => 1) 3
      (dfRow [⟨Hemi.L, 1, 1, 7⟩] 0).roiidx = [] := by decide
  have h := c7_empty_candidate_window cLstsq2 [⟨Hemi.L, 1, 1, 7⟩] 0
    cFuncZeroSeries cSamp6 (fun _ => 0) (fun _ => 1) false 0 3 []
    (fun _ _ => 99) hempty
  exact ⟨hempty, h.1, h.2⟩

/- ------------------------------------------------------------------ -/
/- Claim C10.                                                         -/
/- ------------------------------------------------------------------ -/

/-- C10: the per-vertex validity flag is exactly the predicate "the row's
value at timepoint index 5 is below 5": a row with at least 6 timepoints
yields that predicate, the flag forces the series to have at least 6
timepoints (a shorter row has no value there - numpy raises IndexError),
the flag depends on timepoint 5 only, and on the hemisphere-stacked matrix
a left-block vertex is tested on its left-hemisphere row. -/
theorem c10_validity_flag (row other : List ℝ) (x : ℝ)
    (h5 : row.get? 5 = some x) (hsame : other.get? 5 = row.get? 5) :
    func_zeros_flag row = some (x < 5) ∧
    func_zeros_flag other = func_zeros_flag row ∧
    6 ≤ row.length ∧
    (∀ r : List ℝ, r.length < 6 → func_zeros_flag r = none) ∧
    (∀ (dataL dataR : Nat → List ℝ) (numL v : Nat), v < numL →
      func_zeros_flag (vstack dataL dataR numL v) = func_zeros_flag (dataL v)) := by
  refine ⟨?_, ?_, ?_, ?_, ?_⟩
  · rw [func_zeros_flag, h5]
    rfl
  · rw [func_zeros_flag, func_zeros_flag, hsame]
  · obtain ⟨h, -⟩ := List.get?_eq_some.mp h5
    omega
  · intro r hr
    rw [func_zeros_flag, List.get?_eq_none.mpr (by omega)]
    rfl
  · intro dataL dataR numL v hv
    rw [vstack, if_pos hv]

/-- C10, witness at a concrete row: the 6th value is 3, so the vertex is
flagged exactly when 3 < 5. -/
theorem c10_validity_flag_witness :
    func_zeros_flag [0, 0, 0, 0, 0, (3 : ℝ)] = some ((3 : ℝ) < 5) ∧
    func_zeros_flag [9, 9, 9, 9, 9, (3 : ℝ), 9] = func_zeros_flag [0, 0, 0, 0, 0, (3 : ℝ)] ∧
    6 ≤ ([0, 0, 0, 0, 0, (3 : ℝ)] : List ℝ).length ∧
    (∀ r : List ℝ, r.length < 6 → func_zeros_flag r = none) ∧
    (∀ (dataL dataR : Nat → List ℝ) (numL v : Nat), v < numL →
      func_zeros_flag (vstack dataL dataR numL v) = func_zeros_flag (dataL v)) :=
  c10_validity_flag [0, 0, 0, 0, 0, (3 : ℝ)] [9, 9, 9, 9, 9, (3 : ℝ), 9] 3 rfl rfl

/- ------------------------------------------------------------------ -/
/- Claim C3.                                                          -/
/- ------------------------------------------------------------------ -/

/-- Characterisation of the iterate_pint while loop from any point after at
least one executed sweep: the loop runs on while the previous sweep's
max_distance exceeds 1 and fuel remains, and returns the state, last
max_distance and final iteration counter. -/
theorem iterate_loop_spec {St : Type} (sweep : Nat → St → St × ℝ)
    (base : Nat) (st0 : St) :
    ∀ (fuel j : Nat), ∃ k, j + 1 ≤ k ∧ k ≤ j + 1 + fuel ∧
      iterate_loop sweep fuel (base + (j + 1)) (sweepState sweep base st0 (j + 1))
          (sweepDist sweep base st0 j) =
        (sweepState sweep base st0 k, sweepDist sweep base st0 (k - 1), base + k) ∧
      (∀ i, j ≤ i → i + 1 < k → 1 < sweepDist sweep base st0 i) ∧
      (k < j + 1 + fuel → sweepDist sweep base st0 (k - 1) ≤ 1) := by
  intro fuel
  induction fuel with
  | zero =>
      intro j
      refine ⟨j + 1, le_refl _, by omega, ?_, ?_, ?_⟩
      · simp [iterate_loop]
      · intro i hji hlt
        omega
      · intro hlt
        omega
  | succ fuel ih =>
      intro j
      by_cases hd : 1 < sweepDist sweep base st0 j
      · obtain ⟨k, hk1, hk2, heq, hmono, hconv⟩ := ih (j + 1)
        refine ⟨k, by omega, by omega, ?_, ?_, ?_⟩
        · have hstep : iterate_loop sweep (fuel + 1) (base + (j + 1))
              (sweepState sweep base st0 (j + 1)) (sweepDist sweep base st0 j) =
              iterate_loop sweep fuel (base + (j + 1) + 1)
                (sweep (base + (j + 1)) (sweepState sweep base st0 (j + 1))).1
                (sweep (base + (j + 1)) (sweepState sweep base st0 (j + 1))).2 := by
            simp only [iterate_loop]
            rw [if_pos hd]
          rw [hstep]
          have harg : base + (j + 1) + 1 = base + (j + 1 + 1) := by omega
          rw [harg]
          exact heq
        · intro i hji hlt
          by_cases hij : i = j
          · exact hij ▸ hd
          · exact hmono i (by omega) hlt
        · intro hlt
          exact hconv (by omega)
      · refine ⟨j + 1, le_refl _, by omega, ?_, ?_, ?_⟩
        · simp only [iterate_loop]
          rw [if_neg hd]
          simp
        · intro i hji hlt
          omega
        · intro _
          exact le_of_not_lt hd

/-- C3: for every input the Iteration Controller halts; it returns after
some number k of sweeps with 1 ≤ k ≤ 50 counted from its start point,
stopping as soon as a sweep's max_displacement is at most 1 (every earlier
sweep exceeded 1, and stopping before the budget means the last sweep
converged), and otherwise running exactly 50 sweeps; in both cases it
terminates normally, reporting the last achieved max_distance and the final
iteration counter start_iter + k. -/
theorem c3_iteration_controller_halts {St : Type} (sweep : Nat → St → St × ℝ)
    (start_iter : Nat) (st0 : St) :
    ∃ k, 1 ≤ k ∧ k ≤ 50 ∧
      iterate_pint sweep start_iter st0 =
        (sweepState sweep start_iter st0 k,
          sweepDist sweep start_iter st0 (k - 1), start_iter + k) ∧
      (∀ i, i + 1 < k → 1 < sweepDist sweep start_iter st0 i) ∧
      (k < 50 → sweepDist sweep start_iter st0 (k - 1) ≤ 1) := by
  obtain ⟨k, hk1, hk2, heq, hmono, hconv⟩ :=
    iterate_loop_spec sweep start_iter st0 49 0
  refine ⟨k, by omega, by omega, ?_, ?_, ?_⟩
  · rw [iterate_pint]
    have h50 : (50 : Nat) = 49 + 1 := rfl
    rw [h50]
    have hstep : iterate_loop sweep (49 + 1) start_iter st0 10 =
        iterate_loop sweep 49 (start_iter + 1) (sweep start_iter st0).1
          (sweep start_iter st0).2 := by
      simp only [iterate_loop]
      rw [if_pos (by norm_num : (1 : ℝ) < 10)]
    rw [hstep]
    have hst : (sweep start_iter st0).1 = sweepState sweep start_iter st0 (0 + 1) := by
      simp [sweepState]
    have hdd : (sweep start_iter st0).2 = sweepDist sweep start_iter st0 0 := by
      simp [sweepDist, sweepState]
    have ha : start_iter + 1 = start_iter + (0 + 1) := rfl
    rw [hst, hdd, ha]
    exact heq
  · intro i hlt
    exact hmono i (by omega) hlt
  · intro hlt
    exact hconv (by omega)

/- ------------------------------------------------------------------ -/
/- Claim C4.                                                          -/
/- ------------------------------------------------------------------ -/

/-- The per-seed write loop of a sweep, fully characterised: each visited
seed's output cell holds its own pint_move_vertex result (last write wins,
and every write to a given cell writes the same frozen-input value). -/
theorem runSweep_foldl_apply (g : Nat → Int) :
    ∀ (order : List Nat) (acc : Nat → Option Int) (v : Nat),
      (order.foldl (fun out idx => Function.update out idx (some (g idx))) acc) v =
        if v ∈ order then some (g v) else acc v := by
  intro order
  induction order with
  | nil => intro acc v; simp
  | cons a l ih =>
      intro acc v
      rw [List.foldl_cons, ih]
      by_cases hv : v ∈ l
      · simp [hv]
      · by_cases hva : v = a
        · subst hva
          simp [hv, Function.update]
        · simp [hv, hva, Function.update]

/-- C4: within a single sweep, the assignment of new positions is
independent of the random per-seed visitation order.  For any two visitation
orders that are permutations of one another, over the same frozen inputs
(masks, sampling means, network means, incoming positions), the resulting
output column is identical for every seed, because pint_move_vertex reads
only inputs frozen before the per-seed loop and writes only the seed's own
cell. -/
theorem c4_sweep_order_independent {T : Nat}
    (lstsq : (q : Nat) → Matrix (Fin T) (Fin q) ℝ → (Fin T → ℝ) → Fin q → ℝ)
    (df : List SeedRow) (func_data : Nat → Fin T → ℝ)
    (sampling_meants : Nat → Fin T → ℝ)
    (search_rois padding_rois : Nat → Nat) (pcorr : Bool)
    (num_Lverts m : Nat) (netmeants : List (Nat × (Fin T → ℝ)))
    (order1 order2 : List Nat) (hperm : order1.Perm order2) :
    runSweep lstsq df func_data sampling_meants search_rois padding_rois
        pcorr num_Lverts m netmeants order1 =
      runSweep lstsq df func_data sampling_meants search_rois padding_rois
        pcorr num_Lverts m netmeants order2 := by
  funext v
  rw [runSweep, runSweep, runSweep_foldl_apply, runSweep_foldl_apply]
  simp [hperm.mem_iff]

/-- C4, witness: the two visitation orders of a concrete two-seed sweep
yield the same output column. -/
theorem c4_sweep_order_independent_witness :
    ([0, 1] : List Nat).Perm [1, 0] ∧
    runSweep cLstsq2 cDf6 cFunc6 cSamp6 cSearch6 cPad6 false 0 2 [] [0, 1] =
      runSweep cLstsq2 cDf6 cFunc6 cSamp6 cSearch6 cPad6 false 0 2 [] [1, 0] := by
  have hperm : ([0, 1] : List Nat).Perm [1, 0] := by decide
  exact ⟨hperm,
    c4_sweep_order_independent cLstsq2 cDf6 cFunc6 cSamp6 cSearch6 cPad6
      false 0 2 [] [0, 1] [1, 0] hperm⟩

/- ------------------------------------------------------------------ -/
/- Argmax and seed_corrs lemmas (towards C6).                         -/
/- ------------------------------------------------------------------ -/

/-- Base case of np_argmax: an empty prefix returns index 0. -/
theorem np_argmax_zero (f : Nat → ℝ) : np_argmax f 0 = 0 := by
  simp [np_argmax]

/-- Unfolding np_argmax by one more scanned index. -/
theorem np_argmax_succ (f : Nat → ℝ) (m : Nat) :
    np_argmax f (m + 1) =
      if f (np_argmax f m) < f m then m else np_argmax f m := by
  simp [np_argmax, List.range_succ]

/-- Specification of numpy argmax over a prefix of length m: the result is
in range (for m positive), attains the maximum, and every strictly earlier
index scores strictly less (ties resolve to the first index). -/
theorem np_argmax_spec (f : Nat → ℝ) :
    ∀ m, (0 < m → np_argmax f m < m) ∧
      (∀ v, v < m → f v ≤ f (np_argmax f m)) ∧
      (∀ v, v < np_argmax f m → f v < f (np_argmax f m)) := by
  intro m
  induction m with
  | zero =>
      refine ⟨by omega, by omega, ?_⟩
      rw [np_argmax_zero]
      omega
  | succ m ih =>
      obtain ⟨ih1, ih2, ih3⟩ := ih
      rw [np_argmax_succ]
      by_cases h : f (np_argmax f m) < f m
      · rw [if_pos h]
        refine ⟨fun _ => by omega, ?_, ?_⟩
        · intro v hv
          rcases Nat.lt_succ_iff_lt_or_eq.mp hv with hv2 | hv2
          · exact le_of_lt (lt_of_le_of_lt (ih2 v hv2) h)
          · exact hv2 ▸ le_refl _
        · intro v hv
          exact lt_of_le_of_lt (ih2 v hv) h
      · rw [if_neg h]
        refine ⟨?_, ?_, ih3⟩
        · intro _
          rcases Nat.eq_zero_or_pos m with hm | hm
          · subst hm
            rw [np_argmax_zero]
            omega
          · exact lt_trans (ih1 hm) (by omega)
        · intro v hv
          rcases Nat.lt_succ_iff_lt_or_eq.mp hv with hv2 | hv2
          · exact ih2 v hv2
          · rw [hv2]
            exact le_of_not_lt h

/-- The seed_corrs array after the scoring loop: a scored (candidate) index
holds its score; every other index keeps the -1 initialisation. -/
theorem seedCorrsOf_apply (sc : Nat → ℝ) :
    ∀ (l : List Nat) (v : Nat),
      seedCorrsOf sc l v = if v ∈ l then sc v else -1 := by
  have key : ∀ (l : List Nat) (arr : Nat → ℝ) (v : Nat),
      (l.foldl (fun a u => Function.update a u (sc u)) arr) v =
        if v ∈ l then sc v else arr v := by
    intro l
    induction l with
    | nil => intro arr v; simp
    | cons a t ih =>
        intro arr v
        rw [List.foldl_cons, ih]
        by_cases hv : v ∈ t
        · simp [hv]
        · by_cases hva : v = a
          · subst hva
            simp [hv, Function.update]
          · simp [hv, hva, Function.update]
  intro l v
  rw [seedCorrsOf, key]

/- ------------------------------------------------------------------ -/
/- Claim C6.                                                          -/
/- ------------------------------------------------------------------ -/

/-- C6, amended part: in every sweep, for every seed, provided at least one
candidate scores strictly above the -1 array initialisation, the new
position is the hemisphere-adjusted image of a vertex p that lies in the
intersection of the seed's search and padding masks, p attains the maximum
correlation score among the candidates, and ties resolve to the
first-encountered (lowest-index) candidate in the ascending enumeration
order of the candidate list. -/
theorem c6_selects_first_max {T : Nat}
    (lstsq : (q : Nat) → Matrix (Fin T) (Fin q) ℝ → (Fin T → ℝ) → Fin q → ℝ)
    (df : List SeedRow) (idx : Nat) (func_data : Nat → Fin T → ℝ)
    (sampling_meants : Nat → Fin T → ℝ)
    (search_rois padding_rois : Nat → Nat) (pcorr : Bool)
    (num_Lverts m : Nat) (netmeants : List (Nat × (Fin T → ℝ)))
    (hgt : ∃ c ∈ pmvMask search_rois padding_rois m (dfRow df idx).roiidx,
      -1 < pmvScoreOf lstsq df idx func_data sampling_meants pcorr netmeants c) :
    ∃ p, p ∈ pmvMask search_rois padding_rois m (dfRow df idx).roiidx ∧
      (∀ c ∈ pmvMask search_rois padding_rois m (dfRow df idx).roiidx,
        pmvScoreOf lstsq df idx func_data sampling_meants pcorr netmeants c ≤
          pmvScoreOf lstsq df idx func_data sampling_meants pcorr netmeants p) ∧
      (∀ c ∈ pmvMask search_rois padding_rois m (dfRow df idx).roiidx, c < p →
        pmvScoreOf lstsq df idx func_data sampling_meants pcorr netmeants c <
          pmvScoreOf lstsq df idx func_data sampling_meants pcorr netmeants p) ∧
      pint_move_vertex lstsq df idx func_data sampling_meants search_rois
          padding_rois pcorr num_Lverts m netmeants =
        hemiAdjust (dfRow df idx).hemi p num_Lverts := by
  obtain ⟨c, hcmem, hcgt⟩ := hgt
  set L := pmvMask search_rois padding_rois m (dfRow df idx).roiidx with hL
  set sc := pmvScoreOf lstsq df idx func_data sampling_meants pcorr netmeants with hsc
  set g := seedCorrsOf sc L with hg
  have hcm : c < m := (mem_pmvMask hcmem).1
  have hm : 0 < m := lt_of_le_of_lt (Nat.zero_le c) hcm
  obtain ⟨hA1, hA2, hA3⟩ := np_argmax_spec g m
  set A := np_argmax g m with hA
  have hgc : g c = sc c := by rw [hg, seedCorrsOf_apply, if_pos hcmem]
  have hgA : -1 < g A := lt_of_lt_of_le (hgc ▸ hcgt) (hA2 c hcm)
  have hAmem : A ∈ L := by
    by_contra hnot
    rw [hg, seedCorrsOf_apply, if_neg hnot] at hgA
    exact lt_irrefl _ hgA
  have hgmem : ∀ v ∈ L, g v = sc v := by
    intro v hv
    rw [hg, seedCorrsOf_apply, if_pos hv]
  refine ⟨A, hAmem, ?_, ?_, ?_⟩
  · intro v hv
    have := hA2 v (mem_pmvMask hv).1
    rw [hgmem v hv, hgmem A hAmem] at this
    exact this
  · intro v hv hlt
    have := hA3 v hlt
    rw [hgmem v hv, hgmem A hAmem] at this
    exact this
  · rw [pint_move_vertex]
    have hne : L ≠ [] := by
      intro h0
      rw [h0] at hcmem
      exact List.not_mem_nil c hcmem
    rw [if_neg (by simpa [hL, List.isEmpty_iff] using hne)]

/-- Pearson correlation of the concrete pair (2,-2) and (-1,1) is exactly
-1 (perfect anticorrelation). -/
theorem pearson_anticorr_pair :
    pearson (![2, -2] : Fin 2 → ℝ) ![(-1 : ℝ), 1] = -1 := by
  have h1 : vmean (![2, -2] : Fin 2 → ℝ) = 0 := by
    simp [vmean, Fin.sum_univ_two]
  have h2 : vmean (![(-1 : ℝ), 1] : Fin 2 → ℝ) = 0 := by
    simp [vmean, Fin.sum_univ_two]
  rw [pearson]
  simp only [centered, h1, h2, Fin.sum_univ_two, sub_zero,
    Matrix.cons_val_zero, Matrix.cons_val_one, Matrix.head_cons]
  norm_num
  rw [show (16 : ℝ) = 4 ^ 2 by norm_num,
    Real.sqrt_sq (by norm_num : (0 : ℝ) ≤ 4)]
  norm_num

/-- Argmax over a single scanned index is that index 0. -/
theorem np_argmax_one (f : Nat → ℝ) : np_argmax f 1 = 0 := by
  have h := np_argmax_succ f 0
  rw [np_argmax_zero, if_neg (lt_irrefl (f 0))] at h
  exact h

/-- The target series of seed 0 of the concrete two-seed table is the
co-member row (2, -2). -/
theorem cMeants6_eval :
    meantsOf cSamp6 (netlabelsOf cDf6 1 1) = ![2, -2] := by
  have hnet : netlabelsOf cDf6 1 1 = [2] := by decide
  rw [hnet]
  funext t
  simp [meantsOf, cSamp6]

/-- C6, counterexample: the claim says a moved seed always lands on a
candidate from the intersection of its search and padding masks, chosen as
the maximum-score candidate.  With a nonempty candidate set {1} whose only
candidate scores exactly -1 (perfect anticorrelation), every entry of the
score array equals the -1 initialisation, np.argmax returns index 0, and the
seed moves to vertex 0 - which is neither its incoming position (1) nor a
member of its candidate set. -/
theorem c6_sentinel_escape :
    pmvMask cSearch6 cPad6 2 (dfRow cDf6 0).roiidx = [1] ∧
    (dfRow cDf6 0).pos = 1 ∧
    pint_move_vertex cLstsq2 cDf6 0 cFunc6 cSamp6 cSearch6 cPad6 false 0 2 [] = 0 ∧
    ¬ (pint_move_vertex cLstsq2 cDf6 0 cFunc6 cSamp6 cSearch6 cPad6 false 0 2 [] =
          (dfRow cDf6 0).pos ∨
        ∃ c ∈ pmvMask cSearch6 cPad6 2 (dfRow cDf6 0).roiidx,
          pint_move_vertex cLstsq2 cDf6 0 cFunc6 cSamp6 cSearch6 cPad6 false 0 2 [] =
            (c : Int)) := by
  have hmask : pmvMask cSearch6 cPad6 2 (dfRow cDf6 0).roiidx = [1] := by decide
  have hsc1 : pmvScoreOf cLstsq2 cDf6 0 cFunc6 cSamp6 false [] 1 = -1 := by
    have e1 : pmvScoreOf cLstsq2 cDf6 0 cFunc6 cSamp6 false [] 1 =
        pearson (meantsOf cSamp6 (netlabelsOf cDf6 1 1)) ![(-1 : ℝ), 1] := rfl
    rw [e1, cMeants6_eval, pearson_anticorr_pair]
  have hg0 : seedCorrsOf (pmvScoreOf cLstsq2 cDf6 0 cFunc6 cSamp6 false []) [1] 0 = -1 := by
    rw [seedCorrsOf_apply, if_neg (by decide)]
  have hg1 : seedCorrsOf (pmvScoreOf cLstsq2 cDf6 0 cFunc6 cSamp6 false []) [1] 1 = -1 := by
    rw [seedCorrsOf_apply, if_pos (List.mem_singleton_self 1), hsc1]
  have h2 : np_argmax (seedCorrsOf (pmvScoreOf cLstsq2 cDf6 0 cFunc6 cSamp6 false []) [1]) 2 = 0 := by
    have h := np_argmax_succ (seedCorrsOf (pmvScoreOf cLstsq2 cDf6 0 cFunc6 cSamp6 false []) [1]) 1
    rw [np_argmax_one, hg0, hg1, if_neg (lt_irrefl (-1 : ℝ))] at h
    exact h
  have hmv : pint_move_vertex cLstsq2 cDf6 0 cFunc6 cSamp6 cSearch6 cPad6 false 0 2 [] = 0 := by
    have e : pint_move_vertex cLstsq2 cDf6 0 cFunc6 cSamp6 cSearch6 cPad6 false 0 2 [] =
        ((np_argmax (seedCorrsOf (pmvScoreOf cLstsq2 cDf6 0 cFunc6 cSamp6 false []) [1]) 2 : Nat) : Int) := rfl
    rw [e, h2]
    rfl
  refine ⟨hmask, rfl, hmv, ?_⟩
  intro hbad
  rcases hbad with h | ⟨c, hcmem, hcval⟩
  · rw [hmv] at h
    exact absurd h (by decide)
  · rw [hmask] at hcmem
    rw [List.mem_singleton.mp hcmem, hmv] at hcval
    exact absurd hcval (by decide)

/-- Pearson correlation against a constant-zero series is 0 (the numerator
vanishes, so the score is 0 under the division convention). -/
theorem pearson_zero_right {T : Nat} (x : Fin T → ℝ) :
    pearson x (fun _ => (0 : ℝ)) = 0 := by
  have h2 : vmean (fun _ => (0 : ℝ) : Fin T → ℝ) = 0 := by
    simp [vmean]
  rw [pearson]
  simp [centered, h2]

/-- C6, witness for the amended theorem: with the candidate scoring 0 > -1,
the moved seed lands on the unique candidate 1, the first-encountered
maximum. -/
theorem c6_selects_first_max_witness :
    (∃ c ∈ pmvMask cSearch6 cPad6 2 (dfRow cDf6 0).roiidx,
      -1 < pmvScoreOf cLstsq2 cDf6 0 cFuncZeroSeries cSamp6 false [] c) ∧
    (∃ p, p ∈ pmvMask cSearch6 cPad6 2 (dfRow cDf6 0).roiidx ∧
      (∀ c ∈ pmvMask cSearch6 cPad6 2 (dfRow cDf6 0).roiidx,
        pmvScoreOf cLstsq2 cDf6 0 cFuncZeroSeries cSamp6 false [] c ≤
          pmvScoreOf cLstsq2 cDf6 0 cFuncZeroSeries cSamp6 false [] p) ∧
      (∀ c ∈ pmvMask cSearch6 cPad6 2 (dfRow cDf6 0).roiidx, c < p →
        pmvScoreOf cLstsq2 cDf6 0 cFuncZeroSeries cSamp6 false [] c <
          pmvScoreOf cLstsq2 cDf6 0 cFuncZeroSeries cSamp6 false [] p) ∧
      pint_move_vertex cLstsq2 cDf6 0 cFuncZeroSeries cSamp6 cSearch6 cPad6
          false 0 2 [] = hemiAdjust (dfRow cDf6 0).hemi p 0) := by
  have hsc : pmvScoreOf cLstsq2 cDf6 0 cFuncZeroSeries cSamp6 false [] 1 = 0 := by
    have e1 : pmvScoreOf cLstsq2 cDf6 0 cFuncZeroSeries cSamp6 false [] 1 =
        pearson (meantsOf cSamp6 (netlabelsOf cDf6 1 1)) (fun _ => (0 : ℝ)) := rfl
    rw [e1, pearson_zero_right]
  have hgt : ∃ c ∈ pmvMask cSearch6 cPad6 2 (dfRow cDf6 0).roiidx,
      -1 < pmvScoreOf cLstsq2 cDf6 0 cFuncZeroSeries cSamp6 false [] c := by
    refine ⟨1, by decide, ?_⟩
    rw [hsc]
    norm_num
  exact ⟨hgt, c6_selects_first_max cLstsq2 cDf6 0 cFuncZeroSeries cSamp6
    cSearch6 cPad6 false 0 2 [] hgt⟩

/-- Partial correlation of any target with a constant-zero candidate is 0
regardless of the (here empty) control matrix - the residual of the zero
series is zero, so the residual Pearson numerator vanishes. -/
theorem partial_corr_zero_right {T : Nat}
    (lstsq0 : Matrix (Fin T) (Fin 0) ℝ → (Fin T → ℝ) → Fin 0 → ℝ)
    (X : Fin T → ℝ) (Z : Matrix (Fin T) (Fin 0) ℝ) :
    partial_corr lstsq0 X (fun _ => (0 : ℝ)) Z = 0 := by
  rw [partial_corr]
  have hy : (fun i => (fun _ => (0 : ℝ)) i -
      matVec Z (lstsq0 Z (fun _ => (0 : ℝ))) i) = (fun _ => (0 : ℝ)) := by
    funext i
    simp [matVec]
  rw [hy]
  exact pearson_zero_right _

/- ------------------------------------------------------------------ -/
/- Claim C5.                                                          -/
/- ------------------------------------------------------------------ -/

/-- C5, counterexample: the claim says a single-member network under
partial-correlation mode is detected and reported as a configuration error.
On a one-seed table in pcorr mode, the evaluator instead computes an empty
co-member list, a degenerate all-zero target series (numpy: a mean over
zero rows), then scores and moves the seed to vertex 1 like any ordinary
sweep - no error path exists in pint_move_vertex. -/
theorem c5_single_member_not_detected :
    netlabelsOf cDf5 1 1 = [] ∧
    meantsOf cSamp6 (netlabelsOf cDf5 1 1) = (fun _ => (0 : ℝ)) ∧
    pint_move_vertex cLstsq2 cDf5 0 cFuncZeroSeries cSamp6 cSearch6 cPad6
        true 0 2 [] = 1 := by
  have hnet : netlabelsOf cDf5 1 1 = [] := by decide
  have hme : meantsOf cSamp6 (netlabelsOf cDf5 1 1) = (fun _ => (0 : ℝ)) := by
    rw [hnet]
    funext t
    simp [meantsOf]
  refine ⟨hnet, hme, ?_⟩
  have hsc1 : pmvScoreOf cLstsq2 cDf5 0 cFuncZeroSeries cSamp6 true [] 1 = 0 := by
    have e1 : pmvScoreOf cLstsq2 cDf5 0 cFuncZeroSeries cSamp6 true [] 1 =
        partial_corr (cLstsq2 0)
          (meantsOf cSamp6 (netlabelsOf cDf5 1 1)) (cFuncZeroSeries 1)
          (matrixOfCols (othersCols ([] : List (Nat × (Fin 2 → ℝ))) 1)) := rfl
    rw [e1]
    exact partial_corr_zero_right _ _ _
  have hg0 : seedCorrsOf (pmvScoreOf cLstsq2 cDf5 0 cFuncZeroSeries cSamp6 true []) [1] 0 = -1 := by
    rw [seedCorrsOf_apply, if_neg (by decide)]
  have hg1 : seedCorrsOf (pmvScoreOf cLstsq2 cDf5 0 cFuncZeroSeries cSamp6 true []) [1] 1 = 0 := by
    rw [seedCorrsOf_apply, if_pos (List.mem_singleton_self 1), hsc1]
  have h2 : np_argmax (seedCorrsOf (pmvScoreOf cLstsq2 cDf5 0 cFuncZeroSeries cSamp6 true []) [1]) 2 = 1 := by
    have h := np_argmax_succ (seedCorrsOf (pmvScoreOf cLstsq2 cDf5 0 cFuncZeroSeries cSamp6 true []) [1]) 1
    rw [np_argmax_one, hg0, hg1, if_pos (by norm_num : (-1 : ℝ) < 0)] at h
    exact h
  have e : pint_move_vertex cLstsq2 cDf5 0 cFuncZeroSeries cSamp6 cSearch6 cPad6 true 0 2 [] =
      ((np_argmax (seedCorrsOf (pmvScoreOf cLstsq2 cDf5 0 cFuncZeroSeries cSamp6 true []) [1]) 2 : Nat) : Int) := rfl
  rw [e, h2]
  rfl

/-- C5, amended: a network with exactly one member seed is not detected in
either mode; in partial-correlation mode the evaluator silently computes an
empty co-member list and a degenerate target series (numpy: NaN mean over
zero rows; here the division-by-zero convention 0) and proceeds to score
candidates normally. -/
theorem c5_single_member_degenerate {T : Nat} (df : List SeedRow) (idx : Nat)
    (sampling_meants : Nat → Fin T → ℝ)
    (hsingle : networkMembers df (dfRow df idx).network = [(dfRow df idx).roiidx]) :
    netlabelsOf df (dfRow df idx).network (dfRow df idx).roiidx = [] ∧
    meantsOf sampling_meants
        (netlabelsOf df (dfRow df idx).network (dfRow df idx).roiidx) =
      (fun _ => (0 : ℝ)) := by
  have hnet : netlabelsOf df (dfRow df idx).network (dfRow df idx).roiidx = [] := by
    rw [netlabelsOf, hsingle]
    simp
  refine ⟨hnet, ?_⟩
  rw [hnet]
  funext t
  simp [meantsOf]

/-- C5, witness for the amended theorem at the concrete one-seed table. -/
theorem c5_single_member_degenerate_witness :
    networkMembers cDf5 (dfRow cDf5 0).network = [(dfRow cDf5 0).roiidx] ∧
    (netlabelsOf cDf5 (dfRow cDf5 0).network (dfRow cDf5 0).roiidx = [] ∧
      meantsOf cSamp6
          (netlabelsOf cDf5 (dfRow cDf5 0).network (dfRow cDf5 0).roiidx) =
        (fun _ => (0 : ℝ))) := by
  have hsingle : networkMembers cDf5 (dfRow cDf5 0).network = [(dfRow cDf5 0).roiidx] := by
    decide
  exact ⟨hsingle, c5_single_member_degenerate cDf5 0 cSamp6 hsingle⟩

/-- Uniqueness of the least-squares fitted values: any two solutions of the
normal equations for the same design matrix and target produce the same
fitted vector, hence the same residuals. -/
theorem matVec_lstsq_unique {n p : Nat} (Z : Matrix (Fin n) (Fin p) ℝ)
    (x : Fin n → ℝ) (b1 b2 : Fin p → ℝ)
    (h1 : isLstsqSol Z x b1) (h2 : isLstsqSol Z x b2) :
    matVec Z b1 = matVec Z b2 := by
  have hd : ∀ j, (∑ i, Z i j * (matVec Z b1 i - matVec Z b2 i)) = 0 := by
    intro j
    have e : ∀ i ∈ Finset.univ, Z i j * (matVec Z b1 i - matVec Z b2 i) =
        Z i j * (x i - matVec Z b2 i) - Z i j * (x i - matVec Z b1 i) :=
      fun i _ => by ring
    rw [Finset.sum_congr rfl e, Finset.sum_sub_distrib, h2 j, h1 j, sub_zero]
  have hdZ : ∀ i, matVec Z b1 i - matVec Z b2 i =
      ∑ j, Z i j * (b1 j - b2 j) := by
    intro i
    rw [matVec, matVec, ← Finset.sum_sub_distrib]
    exact Finset.sum_congr rfl fun j _ => by ring
  have hsum : (∑ i, (matVec Z b1 i - matVec Z b2 i) *
      (matVec Z b1 i - matVec Z b2 i)) = 0 := by
    calc (∑ i, (matVec Z b1 i - matVec Z b2 i) * (matVec Z b1 i - matVec Z b2 i))
        = ∑ i, ∑ j, (Z i j * (b1 j - b2 j)) *
            (matVec Z b1 i - matVec Z b2 i) := by
          refine Finset.sum_congr rfl fun i _ => ?_
          rw [← Finset.sum_mul, ← hdZ i]
      _ = ∑ j, ∑ i, (Z i j * (b1 j - b2 j)) *
            (matVec Z b1 i - matVec Z b2 i) := Finset.sum_comm
      _ = ∑ j, (b1 j - b2 j) *
            (∑ i, Z i j * (matVec Z b1 i - matVec Z b2 i)) := by
          refine Finset.sum_congr rfl fun j _ => ?_
          rw [Finset.mul_sum]
          exact Finset.sum_congr rfl fun i _ => by ring
      _ = 0 := by
          refine Finset.sum_eq_zero fun j _ => ?_
          rw [hd j, mul_zero]
  funext i
  have hnn : ∀ i ∈ (Finset.univ : Finset (Fin n)),
      0 ≤ (matVec Z b1 i - matVec Z b2 i) * (matVec Z b1 i - matVec Z b2 i) :=
    fun i _ => mul_self_nonneg _
  have hz := (Finset.sum_eq_zero_iff_of_nonneg hnn).mp hsum i (Finset.mem_univ i)
  have := mul_self_eq_zero.mp hz
  linarith

/- ------------------------------------------------------------------ -/
/- Claim C8.                                                          -/
/- ------------------------------------------------------------------ -/

/-- C8: the partial-correlation score of X and Y controlling for Z equals
the Pearson correlation of the residuals of any independently computed
least-squares regressions of X on Z and of Y on Z (the normal equations pin
the fitted values down uniquely, so the source's scipy solution and the
reference solution give identical residuals); and in partial mode the
evaluator's controlling matrix is exactly the concatenation of all other
networks' mean series. -/
theorem c8_partial_corr_matches_reference {n p T : Nat}
    (lstsq : Matrix (Fin n) (Fin p) ℝ → (Fin n → ℝ) → Fin p → ℝ)
    (X Y : Fin n → ℝ) (Z : Matrix (Fin n) (Fin p) ℝ) (bx bY : Fin p → ℝ)
    (hlx : isLstsqSol Z X (lstsq Z X)) (hly : isLstsqSol Z Y (lstsq Z Y))
    (hrx : isLstsqSol Z X bx) (hry : isLstsqSol Z Y bY)
    (lstsq2 : (q : Nat) → Matrix (Fin T) (Fin q) ℝ → (Fin T → ℝ) → Fin q → ℝ)
    (netmeants : List (Nat × (Fin T → ℝ))) (network : Nat)
    (meants : Fin T → ℝ) (func_data : Nat → Fin T → ℝ) (v : Nat) :
    partial_corr lstsq X Y Z =
      pearson (fun i => X i - matVec Z bx i) (fun i => Y i - matVec Z bY i) ∧
    pmvScore true lstsq2 netmeants network meants func_data v =
      partial_corr (lstsq2 (othersCols netmeants network).length) meants
        (func_data v) (matrixOfCols (othersCols netmeants network)) := by
  constructor
  · rw [partial_corr,
      matVec_lstsq_unique Z X (lstsq Z X) bx hlx hrx,
      matVec_lstsq_unique Z Y (lstsq Z Y) bY hly hry]
  · rfl

/-- C8, witness: a concrete intercept-only regression (Z a column of ones).
The external routine returns the sample mean, the reference solutions are
the explicit means 2 and 6, and the partial correlation equals the Pearson
correlation of the explicitly de-meaned residuals. -/
theorem c8_partial_corr_matches_reference_witness :
    isLstsqSol (Matrix.of fun _ _ => (1 : ℝ) : Matrix (Fin 2) (Fin 1) ℝ)
      ![1, 3] ![2] ∧
    partial_corr (fun _ y => fun _ => (y 0 + y 1) / 2) ![1, 3] ![5, 7]
        (Matrix.of fun _ _ => (1 : ℝ) : Matrix (Fin 2) (Fin 1) ℝ) =
      pearson
        (fun i => ![1, 3] i -
          matVec (Matrix.of fun _ _ => (1 : ℝ) : Matrix (Fin 2) (Fin 1) ℝ) ![2] i)
        (fun i => ![5, 7] i -
          matVec (Matrix.of fun _ _ => (1 : ℝ) : Matrix (Fin 2) (Fin 1) ℝ) ![6] i) := by
  have hsol : ∀ x : Fin 2 → ℝ,
      isLstsqSol (Matrix.of fun _ _ => (1 : ℝ) : Matrix (Fin 2) (Fin 1) ℝ) x
        (fun _ => (x 0 + x 1) / 2) := by
    intro x j
    simp [matVec, Fin.sum_univ_two, Fin.sum_univ_one]
    ring
  have hrx : isLstsqSol (Matrix.of fun _ _ => (1 : ℝ) : Matrix (Fin 2) (Fin 1) ℝ)
      ![1, 3] ![2] := by
    intro j
    simp [matVec, Fin.sum_univ_two, Fin.sum_univ_one]
    norm_num
  have hry : isLstsqSol (Matrix.of fun _ _ => (1 : ℝ) : Matrix (Fin 2) (Fin 1) ℝ)
      ![5, 7] ![6] := by
    intro j
    simp [matVec, Fin.sum_univ_two, Fin.sum_univ_one]
    norm_num
  refine ⟨hrx, ?_⟩
  exact (c8_partial_corr_matches_reference
    (fun _ y => fun _ => (y 0 + y 1) / 2) ![1, 3] ![5, 7]
    (Matrix.of fun _ _ => (1 : ℝ)) ![2] ![6]
    (hsol ![1, 3]) (hsol ![5, 7]) hrx hry
    (fun _ _ _ => fun _ => (0 : ℝ)) ([] : List (Nat × (Fin 1 → ℝ))) 0
    (fun _ => 0) (fun _ _ => 0) 0).1

/- ------------------------------------------------------------------ -/
/- Claim C9.                                                          -/
/- ------------------------------------------------------------------ -/

/-- Upper bound for a foldr max over a list. -/
theorem foldr_max_le {l : List Nat} {N : Nat} (h : ∀ x ∈ l, x ≤ N) :
    l.foldr max 0 ≤ N := by
  induction l with
  | nil => simp
  | cons a t ih =>
      simp only [List.foldr_cons]
      exact max_le (h a (by simp)) (ih fun x hx => h x (by simp [hx]))

/-- Every member is at most the foldr max. -/
theorem le_foldr_max {l : List Nat} {x : Nat} (h : x ∈ l) :
    x ≤ l.foldr max 0 := by
  induction l with
  | nil => cases h
  | cons a t ih =>
      simp only [List.foldr_cons]
      rcases List.mem_cons.mp h with h1 | h1
      · exact h1 ▸ le_max_left _ _
      · exact le_trans (ih h1) (le_max_right _ _)

/-- When a label list contains 0 and exactly the labels up to N, np.unique
returns the ascending list 0, 1, ..., N. -/
theorem np_unique_eq_range {l : List Nat} {N : Nat} (h0 : 0 ∈ l)
    (hub : ∀ x ∈ l, x ≤ N) (hall : ∀ r, 1 ≤ r → r ≤ N → r ∈ l) :
    np_unique l = List.range (N + 1) := by
  have hmax : l.foldr max 0 = N := by
    refine le_antisymm (foldr_max_le hub) ?_
    cases N with
    | zero => exact Nat.zero_le _
    | succ n => exact le_foldr_max (hall (n + 1) (by omega) (le_refl _))
  rw [np_unique, hmax]
  refine List.filter_eq_self.mpr ?_
  intro x hx
  have hxN : x ≤ N := by
    have := List.mem_range.mp hx
    omega
  rcases Nat.eq_zero_or_pos x with hx0 | hx0
  · subst hx0
    simp [List.contains, List.elem_eq_mem, h0]
  · have := hall x (by omega) hxN
    simp [List.contains, List.elem_eq_mem, this]

/-- C9, counterexample: the claim says the sampling-means matrix has one row
per distinct nonzero label of the mask.  On the mask (1, 1, 2), which labels
every vertex (no background 0), `np.unique(mask)[1:]` drops the smallest
label 1 rather than the absent 0, leaving one row although two distinct
nonzero labels are present. -/
theorem c9_unique_drops_smallest_label :
    (calc_sampling_meants (fun _ (_ : Fin 1) => (0 : ℝ))
        (fun v => if v = 2 then 2 else 1) 3).length = 1 ∧
    (nonzeroLabels (fun v => if v = 2 then 2 else 1) 3).length = 2 ∧
    (calc_sampling_meants (fun _ (_ : Fin 1) => (0 : ℝ))
        (fun v => if v = 2 then 2 else 1) 3).length ≠
      (nonzeroLabels (fun v => if v = 2 then 2 else 1) 3).length := by
  refine ⟨rfl, rfl, ?_⟩
  decide

/-- C9, amended: provided the background label 0 occurs in the sampling mask
and every label 1..N (one per seed) labels at least one vertex, the
sampling-means matrix has exactly one row per nonzero label in ascending
order, and the row at position roiidx - 1 is exactly the mean series of the
vertices labelled roiidx - so the target-series computation
`sampling_meants[(netlabels - 1), :]` selects exactly the co-members' rows.
Without the precondition (an empty sampling region, or a mask with no 0) the
positional indexing no longer corresponds to roiidx. -/
theorem c9_sampling_rows_indexing {T : Nat} (func_data : Nat → Fin T → ℝ)
    (mask : Nat → Nat) (m N : Nat)
    (h0 : 0 ∈ maskValues mask m)
    (hub : ∀ x ∈ maskValues mask m, x ≤ N)
    (hall : ∀ r, 1 ≤ r → r ≤ N → r ∈ maskValues mask m) :
    np_unique (maskValues mask m) = List.range (N + 1) ∧
    (calc_sampling_meants func_data mask m).length = N ∧
    (∀ r, 1 ≤ r → r ≤ N →
      (calc_sampling_meants func_data mask m).get? (r - 1) =
        some (sampleRow func_data mask m r)) ∧
    (∀ r, 1 ≤ r → r ≤ N →
      rowOf (calc_sampling_meants func_data mask m) (r - 1) =
        sampleRow func_data mask m r) := by
  have hu : np_unique (maskValues mask m) = List.range (N + 1) :=
    np_unique_eq_range h0 hub hall
  have htail : (np_unique (maskValues mask m)).tail =
      (List.range N).map Nat.succ := by
    rw [hu, List.range_succ_eq_map]
    rfl
  have hget : ∀ r, 1 ≤ r → r ≤ N →
      (calc_sampling_meants func_data mask m).get? (r - 1) =
        some (sampleRow func_data mask m r) := by
    intro r h1 h2
    rw [calc_sampling_meants, htail, List.map_map, List.get?_map,
      List.get?_range (by omega : r - 1 < N)]
    simp [show r - 1 + 1 = r by omega]
  refine ⟨hu, ?_, hget, ?_⟩
  · rw [calc_sampling_meants, htail]
    simp
  · intro r h1 h2
    rw [rowOf, List.getD_eq_get?, hget r h1 h2]
    rfl

/-- C9, witness for the amended theorem on the mask (0, 1, 2): two rows, and
row 1 is the mean series of label 2. -/
theorem c9_sampling_rows_indexing_witness :
    (calc_sampling_meants (fun _ (_ : Fin 1) => (0 : ℝ)) (fun v => v) 3).length = 2 ∧
    rowOf (calc_sampling_meants (fun _ (_ : Fin 1) => (0 : ℝ)) (fun v => v) 3) 1 =
      sampleRow (fun _ (_ : Fin 1) => (0 : ℝ)) (fun v => v) 3 2 := by
  have h := c9_sampling_rows_indexing (fun _ (_ : Fin 1) => (0 : ℝ))
    (fun v => v) 3 2 (by decide) (by decide)
    (by
      intro r h1 h2
      interval_cases r <;> decide)
  exact ⟨h.2.1, h.2.2.2 2 (by norm_num) (le_refl 2)⟩
